import Mathlib

/-!
Shallow embedding of the vault-policies synchronizer (src/main.go).

The program reconciles a local directory of policy files with a remote
policy store.  We model:

* paths and the Go helpers `filepath.Ext` / `filepath.Base` at the
  character level (paths are treated as slash-separated clean paths,
  matching how the program uses them);
* policy maps (Go `map[string]string`) as association lists with
  unique keys; Go map assignment replaces in place, iteration is
  determinized to the list order;
* the filesystem walk (`filepath.Walk`) as a list of walk events given
  to the callback in order: a regular entry carries the path, whether
  it is a directory, and the outcome of reading it, while a failure
  event carries the error the walk hands to the callback;
* the remote store as a listing result plus a per-name fetch oracle;
* each mode (`backupPolicies`, `uploadPolicies`, `restorePolicies`)
  as a function returning the trace of externally visible actions
  (file writes, remote puts/deletes, dry-run prints) together with the
  `error` value the Go function returns (`none` models `nil`).

Debug-only `log` output is not modelled; the unconditional
`fmt.Printf` dry-run descriptions are modelled as print actions.
-/

namespace VaultPolicies

/-- Go `filepath.Ext` scanned from the right over the reversed
character list: stop with no extension at a separator, return from the
final dot otherwise. `acc` holds the characters already passed, in
their original order. -/
def extRevAux : List Char → List Char → List Char
  | [], _ => []
  | c :: rest, acc =>
    if c = '/' then []
    else if c = '.' then c :: acc
    else extRevAux rest (c :: acc)

/-- Go `filepath.Ext`: the suffix beginning at the final dot in the
final slash-separated element, empty if there is none. -/
def goExt (p : String) : String := String.mk (extRevAux p.data.reverse [])

/-- Go `filepath.Base`: empty path gives a dot, trailing separators
are removed, then the last element is returned (root gives a slash). -/
def goBase (p : String) : String :=
  if p = "" then String.mk ['.']
  else
    let r := p.data.reverse.dropWhile (fun c => c = '/')
    if r = [] then String.mk ['/']
    else String.mk ((r.takeWhile (fun c => c ≠ '/')).reverse)

/-- The policy name the walker derives from a path, exactly as
`walkDirectoryPolicies` computes it: the base name with the extension
of the base name sliced off (`policy[:len(policy)-len(Ext(policy))]`,
modelled at character level). -/
def policyName (path : String) : String :=
  let b := goBase path
  let e := goExt b
  String.mk (b.data.take (b.data.length - e.data.length))

/-- Go `filepath.Join(dir, name)` for a clean directory and a relative
name: concatenation with the separator. -/
def joinPath (dir name : String) : String := dir ++ String.mk ['/'] ++ name

/-- A Go `map[string]string`, determinized as an association list in
insertion order with unique keys. -/
abbrev PolicyMap := List (String × String)

/-- Map lookup: the value stored at the first (with unique keys, the
only) matching entry. -/
def lookupP : PolicyMap → String → Option String
  | [], _ => none
  | (k, v) :: rest, k2 => if k = k2 then some v else lookupP rest k2

/-- Go map assignment `m[k] = v`: replace the entry in place when the
key is present, append a new entry otherwise. -/
def insertP : PolicyMap → String → String → PolicyMap
  | [], k, v => [(k, v)]
  | (k1, v1) :: rest, k, v =>
    if k1 = k then (k, v) :: rest else (k1, v1) :: insertP rest k v

/-- Go map deletion: remove every entry for the key (with unique keys
there is at most one). -/
def eraseP : PolicyMap → String → PolicyMap
  | [], _ => []
  | (k1, v1) :: rest, k =>
    if k1 = k then eraseP rest k else (k1, v1) :: eraseP rest k

/-- The keys of a policy map, in order. -/
def keysP (m : PolicyMap) : List String := m.map Prod.fst

/-- Externally visible actions a run performs: local file writes,
remote policy writes and deletions, and dry-run print output. -/
inductive Action where
  | writeFile (path content : String)
  | putPolicy (name content : String)
  | deletePolicy (name : String)
  | printMsg (msg : String)
deriving DecidableEq

/-- True exactly for print actions. -/
def isPrint : Action → Bool
  | Action.printMsg _ => true
  | _ => false

/-- One event of a `filepath.Walk` traversal, in the order the walk
hands entries to its callback: either a visited entry (with the result
of reading it when it is a regular file), or a walk error delivered to
the callback for a path. -/
inductive WalkEvent where
  | entry (path : String) (isDir : Bool) (readResult : Except String String)
  | failure (path : String) (err : String)

/-- The remote store as seen by the program: the result of listing all
policy names, and a fetch oracle giving each policy's document. -/
structure Remote where
  listResult : Except String (List String)
  getPolicy : String → Except String String

/-- The fetch loop of `walkRemotePolicies`: get each listed policy in
turn and feed it to the callback, stopping at the first error from the
fetch or from the callback.  The callback threads a state and may
report an error. -/
def remoteFold (get : String → Except String String)
    (f : String → String → σ → σ × Option String) :
    List String → σ → σ × Option String
  | [], s => (s, none)
  | p :: ps, s =>
    match get p with
    | Except.error e => (s, some e)
    | Except.ok content =>
      match f p content s with
      | (s2, some e) => (s2, some e)
      | (s2, none) => remoteFold get f ps s2

/-- `walkRemotePolicies`: list the policies, then fetch each and call
the callback, propagating the first error. -/
def walkRemotePolicies (r : Remote)
    (f : String → String → σ → σ × Option String) (s : σ) : σ × Option String :=
  match r.listResult with
  | Except.error e => (s, some e)
  | Except.ok names => remoteFold r.getPolicy f names s

/-- `walkDirectoryPolicies` over the walk's event sequence: a walk
error is returned as is; directories are skipped; entries whose
extension is not `.hcl` are skipped; a selected file is read (a read
error halts the walk) and the callback receives the derived policy
name and the content, its error also halting the walk. -/
def walkDirEvents (f : String → String → σ → σ × Option String) :
    List WalkEvent → σ → σ × Option String
  | [], s => (s, none)
  | WalkEvent.failure _ e :: _, s => (s, some e)
  | WalkEvent.entry path isDir res :: rest, s =>
    if isDir then walkDirEvents f rest s
    else if goExt path ≠ String.mk ['.', 'h', 'c', 'l'] then walkDirEvents f rest s
    else
      match res with
      | Except.error e => (s, some e)
      | Except.ok content =>
        match f (policyName path) content s with
        | (s2, some e) => (s2, some e)
        | (s2, none) => walkDirEvents f rest s2

/-- The callback `restorePolicies` passes to both walks: store the
pair into the map (Go map assignment) and report no error. -/
def addPolicy (p c : String) (m : PolicyMap) : PolicyMap × Option String :=
  (insertP m p c, none)

/-- The per-policy body of `backupPolicies`: in dry-run mode print a
description, otherwise write the file `directory/<policy>.hcl` and
propagate the write error.  `write` is the filesystem's response to
`os.WriteFile`. -/
def backupStep (dryRun : Bool) (directory : String)
    (write : String → String → Except String Unit)
    (policy content : String) (tr : List Action) : List Action × Option String :=
  if dryRun then
    (tr ++ [Action.printMsg ("Would have written " ++ policy ++ ".hcl with content:"),
            Action.printMsg content], none)
  else
    let path := joinPath directory (policy ++ String.mk ['.', 'h', 'c', 'l'])
    match write path content with
    | Except.error e => (tr ++ [Action.writeFile path content], some e)
    | Except.ok _ => (tr ++ [Action.writeFile path content], none)

/-- `backupPolicies`: create the client, then walk the remote policies
writing each to the directory (or printing in dry-run mode). -/
def backupPolicies (client : Except String Unit) (dryRun : Bool) (directory : String)
    (r : Remote) (write : String → String → Except String Unit) :
    List Action × Option String :=
  match client with
  | Except.error e => ([], some e)
  | Except.ok _ => walkRemotePolicies r (backupStep dryRun directory write) []

/-- The per-policy body of `uploadPolicies`: in dry-run mode print a
description, otherwise call `PutPolicy`.  The Go code discards the
value `PutPolicy` returns, so the oracle `put` is consulted but its
result is dropped and the callback always reports no error. -/
def uploadStep (dryRun : Bool) (put : String → String → Except String Unit)
    (policy content : String) (tr : List Action) : List Action × Option String :=
  if dryRun then
    (tr ++ [Action.printMsg ("Would have written policy " ++ policy ++ " with content:"),
            Action.printMsg content], none)
  else
    let _ := put policy content
    (tr ++ [Action.putPolicy policy content], none)

/-- `uploadPolicies`: create the client, then walk the directory
putting each policy to the remote store (or printing in dry-run
mode). -/
def uploadPolicies (client : Except String Unit) (dryRun : Bool)
    (events : List WalkEvent) (put : String → String → Except String Unit) :
    List Action × Option String :=
  match client with
  | Except.error e => ([], some e)
  | Except.ok _ => walkDirEvents (uploadStep dryRun put) events []

/-- The deletion loop of `restorePolicies`: iterate the remote map and
for each name absent from the local map, delete it (or print in
dry-run mode).  The Go code discards the value `DeletePolicy`
returns. -/
def deleteLoop (dryRun : Bool) (del : String → Except String Unit)
    (localM : PolicyMap) : PolicyMap → List Action
  | [] => []
  | (p, _) :: rest =>
    (if lookupP localM p = none then
      if dryRun then [Action.printMsg ("Would have deleted policy " ++ p)]
      else
        let _ := del p
        [Action.deletePolicy p]
    else []) ++ deleteLoop dryRun del localM rest

/-- The write loop of `restorePolicies`: iterate the local map and for
each policy whose remote content is not identical, put it (or print in
dry-run mode); byte-identical policies are skipped.  The Go code
discards the value `PutPolicy` returns. -/
def writeLoop (dryRun : Bool) (put : String → String → Except String Unit)
    (remoteM : PolicyMap) : PolicyMap → List Action
  | [] => []
  | (p, c) :: rest =>
    (if lookupP remoteM p = some c then []
     else if dryRun then
       [Action.printMsg ("Would have written policy " ++ p ++ " with content:"),
        Action.printMsg c]
     else
       let _ := put p c
       [Action.putPolicy p c]) ++ writeLoop dryRun put remoteM rest

/-- The diff-and-apply core of `restorePolicies` (src/main.go lines
167-193): the deletion loop over the remote map followed by the write
loop over the local map. -/
def restoreCore (dryRun : Bool) (put : String → String → Except String Unit)
    (del : String → Except String Unit) (remoteM localM : PolicyMap) : List Action :=
  deleteLoop dryRun del localM remoteM ++ writeLoop dryRun put remoteM localM

/-- `restorePolicies`: create the client, build the remote map, build
the local map, then run the deletion loop and the write loop.  Errors
from the client creation and from either walk abort the run; the
results of `DeletePolicy` and `PutPolicy` are discarded by the Go
code, so after both maps are built the run always returns `nil`. -/
def restorePolicies (client : Except String Unit) (dryRun : Bool) (r : Remote)
    (events : List WalkEvent) (put : String → String → Except String Unit)
    (del : String → Except String Unit) : List Action × Option String :=
  match client with
  | Except.error e => ([], some e)
  | Except.ok _ =>
    match walkRemotePolicies r (fun p c m => addPolicy p c m) ([] : PolicyMap) with
    | (_, some e) => ([], some e)
    | (remoteM, none) =>
      match walkDirEvents (fun p c m => addPolicy p c m) events ([] : PolicyMap) with
      | (_, some e) => ([], some e)
      | (localM, none) => (restoreCore dryRun put del remoteM localM, none)

/-- The effect of a trace of actions on the remote store, each remote
mutation taking effect: a put stores the document, a delete removes
the name, file writes and prints do not touch the remote store. -/
def applyActions : List Action → PolicyMap → PolicyMap
  | [], m => m
  | Action.putPolicy n c :: rest, m => applyActions rest (insertP m n c)
  | Action.deletePolicy n :: rest, m => applyActions rest (eraseP m n)
  | Action.writeFile _ _ :: rest, m => applyActions rest m
  | Action.printMsg _ :: rest, m => applyActions rest m

/-- A healthy remote store holding exactly the policies of `m`: the
listing returns the keys in order and fetching a stored policy returns
its document. -/
def remoteOf (m : PolicyMap) : Remote where
  listResult := Except.ok (keysP m)
  getPolicy := fun n =>
    match lookupP m n with
    | some c => Except.ok c
    | none => Except.error ("missing policy " ++ n)

/-- Specification of the directory scanner, following its description:
it selects exactly the non-directory entries whose extension is
`.hcl`, yields for each the pair of the base name with the extension
removed and the file content, and stops at the first walk or read
error, which it reports. -/
def scanPairs : List WalkEvent → List (String × String) × Option String
  | [] => ([], none)
  | WalkEvent.failure _ e :: _ => ([], some e)
  | WalkEvent.entry path isDir res :: rest =>
    if isDir then scanPairs rest
    else if goExt path ≠ String.mk ['.', 'h', 'c', 'l'] then scanPairs rest
    else
      match res with
      | Except.error e => ([], some e)
      | Except.ok c =>
        let r := scanPairs rest
        ((policyName path, c) :: r.1, r.2)

/-- The scanner run with the collecting callback: the pairs it yields
in order, with the error that halted it, if any. -/
def collectPairs (evs : List WalkEvent) : List (String × String) × Option String :=
  walkDirEvents (fun p c l => (l ++ [(p, c)], none)) evs []

/-- The fetch loop viewed as the list of pairs it produces: get each
name in turn, stopping at the first fetch error. -/
def getAll (get : String → Except String String) :
    List String → List (String × String) × Option String
  | [] => ([], none)
  | p :: ps =>
    match get p with
    | Except.error e => ([], some e)
    | Except.ok c =>
      let r := getAll get ps
      ((p, c) :: r.1, r.2)

/-- The remote walk viewed as the list of pairs it produces. -/
def remotePairs (r : Remote) : List (String × String) × Option String :=
  match r.listResult with
  | Except.error e => ([], some e)
  | Except.ok names => getAll r.getPolicy names

/-- The files a trace writes, replayed as walk events of a directory
holding exactly those files. -/
def eventsOfTrace : List Action → List WalkEvent
  | [] => []
  | Action.writeFile path content :: rest =>
    WalkEvent.entry path false (Except.ok content) :: eventsOfTrace rest
  | Action.putPolicy _ _ :: rest => eventsOfTrace rest
  | Action.deletePolicy _ :: rest => eventsOfTrace rest
  | Action.printMsg _ :: rest => eventsOfTrace rest

/-- Building a map from a list of pairs by repeated Go map assignment,
as both walks of `restorePolicies` do. -/
def mapOf (l : List (String × String)) : PolicyMap :=
  l.foldl (fun m pc => insertP m pc.1 pc.2) []

/-- An environment in which every file write and every remote put
succeeds. -/
def okWrite : String → String → Except String Unit := fun _ _ => Except.ok ()

/-- An environment in which every remote delete succeeds. -/
def okDelete : String → Except String Unit := fun _ => Except.ok ()

/-! ### Basic facts about the map operations -/

theorem keysP_nil : keysP [] = [] := rfl

theorem keysP_cons (k1 v1 : String) (tl : PolicyMap) :
    keysP ((k1, v1) :: tl) = k1 :: keysP tl := rfl

theorem keysP_append (a b : PolicyMap) : keysP (a ++ b) = keysP a ++ keysP b :=
  List.map_append _ a b

theorem mem_keysP_of_mem {m : PolicyMap} {p c : String}
    (h : (p, c) ∈ m) : p ∈ keysP m :=
  List.mem_map_of_mem Prod.fst h

theorem lookupP_insertP (m : PolicyMap) (k v k2 : String) :
    lookupP (insertP m k v) k2 = if k = k2 then some v else lookupP m k2 := by
  induction m with
  | nil => simp [insertP, lookupP]
  | cons hd tl ih =>
    obtain ⟨k1, v1⟩ := hd
    by_cases h1 : k1 = k
    · subst h1
      by_cases h2 : k1 = k2 <;> simp [insertP, lookupP, h2]
    · by_cases h2 : k1 = k2
      · subst h2
        have hk : ¬(k = k1) := fun hc => h1 hc.symm
        simp [insertP, lookupP, h1, hk]
      · simp [insertP, lookupP, h1, h2, ih]

theorem lookupP_eraseP (m : PolicyMap) (k k2 : String) :
    lookupP (eraseP m k) k2 = if k = k2 then none else lookupP m k2 := by
  induction m with
  | nil => simp [eraseP, lookupP]
  | cons hd tl ih =>
    obtain ⟨k1, v1⟩ := hd
    by_cases h1 : k1 = k
    · subst h1
      by_cases h2 : k1 = k2
      · subst h2
        simp [eraseP, lookupP, ih]
      · simp [eraseP, lookupP, h2, ih]
    · by_cases h2 : k1 = k2
      · subst h2
        have hk : ¬(k = k1) := fun hc => h1 hc.symm
        simp [eraseP, lookupP, h1, hk]
      · simp [eraseP, lookupP, h1, h2, ih]

theorem mem_keysP_iff (m : PolicyMap) (k : String) :
    k ∈ keysP m ↔ lookupP m k ≠ none := by
  induction m with
  | nil => simp [keysP_nil, lookupP]
  | cons hd tl ih =>
    obtain ⟨k1, v1⟩ := hd
    by_cases h1 : k1 = k
    · subst h1
      simp [keysP_cons, lookupP]
    · rw [keysP_cons, List.mem_cons]
      simp only [lookupP, if_neg h1]
      constructor
      · rintro (h | h)
        · exact absurd h.symm h1
        · exact ih.mp h
      · intro h
        exact Or.inr (ih.mpr h)

theorem lookupP_eq_none_of_not_mem {m : PolicyMap} {k : String}
    (h : k ∉ keysP m) : lookupP m k = none := by
  by_contra hc
  exact h ((mem_keysP_iff m k).mpr hc)

theorem mem_keysP_insertP (m : PolicyMap) (p c k : String) :
    k ∈ keysP (insertP m p c) ↔ k = p ∨ k ∈ keysP m := by
  induction m with
  | nil => simp [insertP, keysP_cons, keysP_nil]
  | cons hd tl ih =>
    obtain ⟨k1, v1⟩ := hd
    by_cases h1 : k1 = p
    · subst h1
      rw [show insertP ((k1, v1) :: tl) k1 c = (k1, c) :: tl from by simp [insertP]]
      rw [keysP_cons, keysP_cons]
      simp only [List.mem_cons]
      tauto
    · simp only [insertP, if_neg h1, keysP_cons, List.mem_cons]
      rw [ih]
      tauto

theorem nodup_keysP_insertP {m : PolicyMap} (p c : String)
    (h : (keysP m).Nodup) : (keysP (insertP m p c)).Nodup := by
  induction m with
  | nil => simp [insertP, keysP_cons, keysP_nil]
  | cons hd tl ih =>
    obtain ⟨k1, v1⟩ := hd
    rw [keysP_cons, List.nodup_cons] at h
    by_cases h1 : k1 = p
    · subst h1
      rw [show insertP ((k1, v1) :: tl) k1 c = (k1, c) :: tl from by simp [insertP]]
      rw [keysP_cons, List.nodup_cons]
      exact h
    · simp only [insertP, if_neg h1, keysP_cons, List.nodup_cons]
      refine ⟨?_, ih h.2⟩
      intro hc
      rcases (mem_keysP_insertP tl p c k1).mp hc with h2 | h2
      · exact h1 h2
      · exact h.1 h2

theorem keysP_eraseP_sublist (m : PolicyMap) (k : String) :
    (keysP (eraseP m k)).Sublist (keysP m) := by
  induction m with
  | nil => simp [eraseP, keysP_nil]
  | cons hd tl ih =>
    obtain ⟨k1, v1⟩ := hd
    by_cases h1 : k1 = k
    · subst h1
      rw [keysP_cons]
      simp only [eraseP, if_pos rfl]
      exact ih.cons _
    · rw [keysP_cons]
      simp only [eraseP, if_neg h1, keysP_cons]
      exact ih.cons₂ _

theorem nodup_keysP_eraseP {m : PolicyMap} (k : String)
    (h : (keysP m).Nodup) : (keysP (eraseP m k)).Nodup :=
  h.sublist (keysP_eraseP_sublist m k)

theorem lookupP_of_mem {m : PolicyMap} {p c : String}
    (hnd : (keysP m).Nodup) (h : (p, c) ∈ m) : lookupP m p = some c := by
  induction m with
  | nil => simp at h
  | cons hd tl ih =>
    obtain ⟨k1, v1⟩ := hd
    rw [keysP_cons, List.nodup_cons] at hnd
    rcases List.mem_cons.mp h with h1 | h1
    · have hp : p = k1 := congrArg Prod.fst h1
      have hv : c = v1 := congrArg Prod.snd h1
      subst hp
      subst hv
      simp [lookupP]
    · have hne : ¬(k1 = p) := by
        intro hc
        subst hc
        exact hnd.1 (mem_keysP_of_mem h1)
      simp only [lookupP, if_neg hne]
      exact ih hnd.2 h1

theorem insertP_of_not_mem {m : PolicyMap} {p : String} (c : String)
    (h : p ∉ keysP m) : insertP m p c = m ++ [(p, c)] := by
  induction m with
  | nil => simp [insertP]
  | cons hd tl ih =>
    obtain ⟨k1, v1⟩ := hd
    rw [keysP_cons, List.mem_cons] at h
    push_neg at h
    have hne : ¬(k1 = p) := fun hc => h.1 hc.symm
    simp [insertP, hne, ih h.2]

theorem foldl_insertP_fresh (l : List (String × String)) :
    ∀ m : PolicyMap, (keysP l).Nodup → (∀ k ∈ keysP l, k ∉ keysP m) →
      l.foldl (fun m pc => insertP m pc.1 pc.2) m = m ++ l := by
  induction l with
  | nil => intro m _ _; simp
  | cons hd tl ih =>
    intro m hnd hdisj
    obtain ⟨p, c⟩ := hd
    rw [keysP_cons, List.nodup_cons] at hnd
    have hp : p ∉ keysP m := hdisj p (by rw [keysP_cons]; exact List.mem_cons_self p _)
    rw [List.foldl_cons]
    have hstep : insertP m p c = m ++ [(p, c)] := insertP_of_not_mem c hp
    simp only [hstep]
    rw [ih (m ++ [(p, c)]) hnd.2 ?_]
    · simp
    · intro k hk
      rw [keysP_append, List.mem_append]
      push_neg
      refine ⟨?_, ?_⟩
      · exact hdisj k (by rw [keysP_cons]; exact List.mem_cons_of_mem p hk)
      · rw [keysP_cons, keysP_nil, List.mem_singleton]
        intro hc
        subst hc
        exact hnd.1 hk

theorem mapOf_of_nodup {l : List (String × String)}
    (h : (keysP l).Nodup) : mapOf l = l := by
  have hres := foldl_insertP_fresh l [] h (by simp [keysP_nil])
  simpa [mapOf] using hres

theorem nodup_keysP_foldl_insertP (l : List (String × String)) :
    ∀ m : PolicyMap, (keysP m).Nodup →
      (keysP (l.foldl (fun m pc => insertP m pc.1 pc.2) m)).Nodup := by
  induction l with
  | nil => intro m hm; simpa using hm
  | cons hd tl ih =>
    intro m hm
    rw [List.foldl_cons]
    exact ih _ (nodup_keysP_insertP hd.1 hd.2 hm)

theorem nodup_keysP_mapOf (l : List (String × String)) :
    (keysP (mapOf l)).Nodup :=
  nodup_keysP_foldl_insertP l [] (by simp [keysP_nil])

/-! ### The effect of action traces on the remote store -/

theorem applyActions_append (t1 t2 : List Action) (m : PolicyMap) :
    applyActions (t1 ++ t2) m = applyActions t2 (applyActions t1 m) := by
  induction t1 generalizing m with
  | nil => rfl
  | cons a t ih => cases a <;> simp [applyActions, ih]

theorem nodup_keysP_applyActions (tr : List Action) :
    ∀ m : PolicyMap, (keysP m).Nodup → (keysP (applyActions tr m)).Nodup := by
  induction tr with
  | nil => intro m hm; exact hm
  | cons a t ih =>
    intro m hm
    cases a with
    | putPolicy n c => exact ih _ (nodup_keysP_insertP n c hm)
    | deletePolicy n => exact ih _ (nodup_keysP_eraseP n hm)
    | writeFile p c => exact ih _ hm
    | printMsg s => exact ih _ hm

theorem mem_keysP_applyActions_of_no_delete (tr : List Action)
    (h : ∀ a ∈ tr, ∀ n, a ≠ Action.deletePolicy n) :
    ∀ (m : PolicyMap) (k : String), k ∈ keysP m → k ∈ keysP (applyActions tr m) := by
  induction tr with
  | nil => intro m k hk; exact hk
  | cons a t ih =>
    intro m k hk
    have ht : ∀ a ∈ t, ∀ n, a ≠ Action.deletePolicy n :=
      fun a ha => h a (List.mem_cons_of_mem _ ha)
    cases a with
    | putPolicy n c =>
      exact ih ht _ k ((mem_keysP_insertP m n c k).mpr (Or.inr hk))
    | deletePolicy n =>
      exact absurd rfl (h (Action.deletePolicy n) (List.mem_cons_self _ _) n)
    | writeFile p c => exact ih ht m k hk
    | printMsg s => exact ih ht m k hk

/-! ### Normal forms of the two walks -/

theorem walkDirEvents_eq_scan (f : String → String → σ → σ × Option String)
    (hf : ∀ p c s, (f p c s).2 = none) :
    ∀ (evs : List WalkEvent) (s : σ),
      walkDirEvents f evs s =
        ((scanPairs evs).1.foldl (fun s pc => (f pc.1 pc.2 s).1) s,
         (scanPairs evs).2) := by
  intro evs
  induction evs with
  | nil => intro s; simp [walkDirEvents, scanPairs]
  | cons ev rest ih =>
    intro s
    cases ev with
    | failure pth e => simp [walkDirEvents, scanPairs]
    | entry path isDir res =>
      by_cases hd : isDir = true
      · simp only [walkDirEvents, scanPairs, hd, if_true]
        exact ih s
      · by_cases hext : goExt path = String.mk ['.', 'h', 'c', 'l']
        · cases res with
          | error e =>
            simp [walkDirEvents, scanPairs, hd, hext]
          | ok content =>
            have h2 := hf (policyName path) content s
            rcases hres : f (policyName path) content s with ⟨s2, err⟩
            rw [hres] at h2
            subst h2
            simp only [walkDirEvents, scanPairs, hd, hext, if_false, ne_eq,
              not_true_eq_false, Bool.false_eq_true, hres]
            rw [List.foldl_cons, hres]
            exact ih s2
        · simp only [walkDirEvents, scanPairs, hd, hext, ne_eq, not_false_eq_true,
            if_true, Bool.false_eq_true, if_false]
          exact ih s

theorem remoteFold_eq_getAll (get : String → Except String String)
    (f : String → String → σ → σ × Option String)
    (hf : ∀ p c s, (f p c s).2 = none) :
    ∀ (names : List String) (s : σ),
      remoteFold get f names s =
        ((getAll get names).1.foldl (fun s pc => (f pc.1 pc.2 s).1) s,
         (getAll get names).2) := by
  intro names
  induction names with
  | nil => intro s; simp [remoteFold, getAll]
  | cons p ps ih =>
    intro s
    cases hget : get p with
    | error e => simp [remoteFold, getAll, hget]
    | ok content =>
      have h2 := hf p content s
      rcases hres : f p content s with ⟨s2, err⟩
      rw [hres] at h2
      subst h2
      simp only [remoteFold, getAll, hget, hres]
      rw [List.foldl_cons, hres]
      exact ih s2

theorem walkRemotePolicies_eq (r : Remote)
    (f : String → String → σ → σ × Option String)
    (hf : ∀ p c s, (f p c s).2 = none) (s : σ) :
    walkRemotePolicies r f s =
      ((remotePairs r).1.foldl (fun s pc => (f pc.1 pc.2 s).1) s,
       (remotePairs r).2) := by
  cases hlist : r.listResult with
  | error e => simp [walkRemotePolicies, remotePairs, hlist]
  | ok names =>
    simp only [walkRemotePolicies, remotePairs, hlist]
    exact remoteFold_eq_getAll r.getPolicy f hf names s

theorem getAll_remoteOf (R : PolicyMap) :
    ∀ S : List (String × String), (∀ pc ∈ S, lookupP R pc.1 = some pc.2) →
      getAll (remoteOf R).getPolicy (keysP S) = (S, none) := by
  intro S
  induction S with
  | nil => intro _; simp [keysP_nil, getAll]
  | cons pc S2 ih =>
    intro h
    obtain ⟨p, c⟩ := pc
    have hp : lookupP R p = some c := h (p, c) (List.mem_cons_self _ _)
    have hrest := ih (fun pc hpc => h pc (List.mem_cons_of_mem _ hpc))
    have hget : (remoteOf R).getPolicy p = Except.ok c := by
      simp [remoteOf, hp]
    rw [keysP_cons]
    simp [getAll, hget, hrest]

theorem remotePairs_remoteOf {R : PolicyMap} (hnd : (keysP R).Nodup) :
    remotePairs (remoteOf R) = (R, none) := by
  simp only [remotePairs, remoteOf]
  exact getAll_remoteOf R R (fun pc hpc => by
    have := lookupP_of_mem hnd (show (pc.1, pc.2) ∈ R from by simpa using hpc)
    exact this)

/-! ### Folds that only append actions -/

/-- The output generated for each element, concatenated in order. -/
def genAll {α β : Type} (gen : α → List β) : List α → List β
  | [] => []
  | x :: l => gen x ++ genAll gen l

theorem foldl_eq_genAll {α β : Type} (step : List β → α → List β)
    (gen : α → List β) (h : ∀ s x, step s x = s ++ gen x) :
    ∀ (l : List α) (s : List β), l.foldl step s = s ++ genAll gen l := by
  intro l
  induction l with
  | nil => intro s; simp [genAll]
  | cons x l2 ih =>
    intro s
    rw [List.foldl_cons, h, ih, genAll, List.append_assoc]

theorem genAll_mem {α β : Type} {gen : α → List β} {a : β} :
    ∀ {l : List α}, a ∈ genAll gen l → ∃ x ∈ l, a ∈ gen x := by
  intro l
  induction l with
  | nil => intro h; simp [genAll] at h
  | cons x l2 ih =>
    intro h
    rcases List.mem_append.mp h with h1 | h1
    · exact ⟨x, List.mem_cons_self _ _, h1⟩
    · obtain ⟨y, hy, hay⟩ := ih h1
      exact ⟨y, List.mem_cons_of_mem _ hy, hay⟩

theorem genAll_singleton {α β : Type} (g : α → β) (l : List α) :
    genAll (fun x => [g x]) l = l.map g := by
  induction l with
  | nil => rfl
  | cons x l2 ih => simp [genAll, ih]

/-! ### The deletion loop and the write loop of restore -/

theorem mem_of_lookupP_eq_some :
    ∀ {m : PolicyMap} {k c : String}, lookupP m k = some c → (k, c) ∈ m := by
  intro m
  induction m with
  | nil => intro k c h; simp [lookupP] at h
  | cons pc rest ih =>
    intro k c h
    obtain ⟨k1, v1⟩ := pc
    by_cases h1 : k1 = k
    · subst h1
      simp only [lookupP, if_true, eq_self_iff_true, Option.some.injEq] at h
      subst h
      exact List.mem_cons_self _ _
    · simp only [lookupP, if_neg h1] at h
      exact List.mem_cons_of_mem _ (ih h)

theorem deleteLoop_false_cons_of_absent (del : String → Except String Unit)
    (L : PolicyMap) (p v : String) (rest : PolicyMap)
    (hl : lookupP L p = none) :
    deleteLoop false del L ((p, v) :: rest) =
      Action.deletePolicy p :: deleteLoop false del L rest := by
  simp [deleteLoop, hl]

theorem deleteLoop_cons_of_present (dry : Bool) (del : String → Except String Unit)
    (L : PolicyMap) (p v : String) (rest : PolicyMap)
    (hl : ¬(lookupP L p = none)) :
    deleteLoop dry del L ((p, v) :: rest) = deleteLoop dry del L rest := by
  simp [deleteLoop, hl]

theorem mem_deleteLoop_iff (del : String → Except String Unit) (L : PolicyMap) :
    ∀ (R : PolicyMap) (n : String),
      Action.deletePolicy n ∈ deleteLoop false del L R ↔
        n ∈ keysP R ∧ lookupP L n = none := by
  intro R
  induction R with
  | nil => intro n; simp [deleteLoop, keysP_nil]
  | cons pc rest ih =>
    obtain ⟨p, v⟩ := pc
    intro n
    by_cases hl : lookupP L p = none
    · rw [deleteLoop_false_cons_of_absent del L p v rest hl, keysP_cons]
      by_cases hnp : n = p
      · subst hnp
        simp [hl]
      · simp [hnp, ih n]
    · rw [deleteLoop_cons_of_present false del L p v rest hl, keysP_cons]
      by_cases hnp : n = p
      · subst hnp
        simp only [ih n, List.mem_cons]
        constructor
        · rintro ⟨_, h2⟩; exact absurd h2 hl
        · rintro ⟨_, h2⟩; exact absurd h2 hl
      · simp [hnp, ih n]

theorem writeLoop_skip_cons (dry : Bool) (put : String → String → Except String Unit)
    (R : PolicyMap) (p d : String) (rest : PolicyMap)
    (hskip : lookupP R p = some d) :
    writeLoop dry put R ((p, d) :: rest) = writeLoop dry put R rest := by
  simp [writeLoop, hskip]

theorem writeLoop_false_cons (put : String → String → Except String Unit)
    (R : PolicyMap) (p d : String) (rest : PolicyMap)
    (hskip : ¬(lookupP R p = some d)) :
    writeLoop false put R ((p, d) :: rest) =
      Action.putPolicy p d :: writeLoop false put R rest := by
  simp [writeLoop, hskip]

theorem mem_writeLoop_pair (put : String → String → Except String Unit)
    (R : PolicyMap) :
    ∀ (L : PolicyMap) (n c : String),
      Action.putPolicy n c ∈ writeLoop false put R L ↔
        (n, c) ∈ L ∧ ¬(lookupP R n = some c) := by
  intro L
  induction L with
  | nil => intro n c; simp [writeLoop]
  | cons pc rest ih =>
    obtain ⟨p, d⟩ := pc
    intro n c
    by_cases hskip : lookupP R p = some d
    · rw [writeLoop_skip_cons false put R p d rest hskip]
      rw [ih n c, List.mem_cons]
      constructor
      · rintro ⟨h1, h2⟩; exact ⟨Or.inr h1, h2⟩
      · rintro ⟨h1 | h1, h2⟩
        · have hn : n = p := congrArg Prod.fst h1
          have hc : c = d := congrArg Prod.snd h1
          subst hn
          subst hc
          exact absurd hskip h2
        · exact ⟨h1, h2⟩
    · rw [writeLoop_false_cons put R p d rest hskip]
      rw [List.mem_cons, ih n c, List.mem_cons]
      constructor
      · rintro (h1 | ⟨h1, h2⟩)
        · rw [Action.putPolicy.injEq] at h1
          obtain ⟨hn, hc⟩ := h1
          subst hn
          subst hc
          exact ⟨Or.inl rfl, hskip⟩
        · exact ⟨Or.inr h1, h2⟩
      · rintro ⟨h1 | h1, h2⟩
        · have hn : n = p := congrArg Prod.fst h1
          have hc : c = d := congrArg Prod.snd h1
          subst hn
          subst hc
          exact Or.inl rfl
        · exact Or.inr ⟨h1, h2⟩

theorem mem_writeLoop_iff (put : String → String → Except String Unit)
    (R L : PolicyMap) (hL : (keysP L).Nodup) (n c : String) :
    Action.putPolicy n c ∈ writeLoop false put R L ↔
      lookupP L n = some c ∧ ¬(lookupP R n = some c) := by
  rw [mem_writeLoop_pair put R L n c]
  constructor
  · rintro ⟨h1, h2⟩
    exact ⟨lookupP_of_mem hL h1, h2⟩
  · rintro ⟨h1, h2⟩
    exact ⟨mem_of_lookupP_eq_some h1, h2⟩

theorem deleteLoop_true_print (del : String → Except String Unit) (L : PolicyMap) :
    ∀ (R : PolicyMap) (a : Action), a ∈ deleteLoop true del L R → isPrint a = true := by
  intro R
  induction R with
  | nil => intro a ha; simp [deleteLoop] at ha
  | cons pc rest ih =>
    obtain ⟨p, v⟩ := pc
    intro a ha
    by_cases hl : lookupP L p = none
    · simp only [deleteLoop, if_pos hl, if_true, List.cons_append, List.nil_append,
        List.mem_cons] at ha
      rcases ha with ha | ha
      · subst ha; rfl
      · exact ih a ha
    · rw [deleteLoop_cons_of_present true del L p v rest hl] at ha
      exact ih a ha

theorem deleteLoop_false_delete (del : String → Except String Unit) (L : PolicyMap) :
    ∀ (R : PolicyMap) (a : Action), a ∈ deleteLoop false del L R →
      ∃ n, a = Action.deletePolicy n := by
  intro R
  induction R with
  | nil => intro a ha; simp [deleteLoop] at ha
  | cons pc rest ih =>
    obtain ⟨p, v⟩ := pc
    intro a ha
    by_cases hl : lookupP L p = none
    · rw [deleteLoop_false_cons_of_absent del L p v rest hl, List.mem_cons] at ha
      rcases ha with ha | ha
      · exact ⟨p, ha⟩
      · exact ih a ha
    · rw [deleteLoop_cons_of_present false del L p v rest hl] at ha
      exact ih a ha

theorem writeLoop_true_print (put : String → String → Except String Unit)
    (R : PolicyMap) :
    ∀ (L : PolicyMap) (a : Action), a ∈ writeLoop true put R L → isPrint a = true := by
  intro L
  induction L with
  | nil => intro a ha; simp [writeLoop] at ha
  | cons pc rest ih =>
    obtain ⟨p, d⟩ := pc
    intro a ha
    by_cases hskip : lookupP R p = some d
    · rw [writeLoop_skip_cons true put R p d rest hskip] at ha
      exact ih a ha
    · simp only [writeLoop, if_neg hskip, if_true, List.cons_append, List.nil_append,
        List.mem_cons] at ha
      rcases ha with ha | ha | ha
      · subst ha; rfl
      · subst ha; rfl
      · exact ih a ha

theorem writeLoop_false_put (put : String → String → Except String Unit)
    (R : PolicyMap) :
    ∀ (L : PolicyMap) (a : Action), a ∈ writeLoop false put R L →
      ∃ n c, a = Action.putPolicy n c := by
  intro L
  induction L with
  | nil => intro a ha; simp [writeLoop] at ha
  | cons pc rest ih =>
    obtain ⟨p, d⟩ := pc
    intro a ha
    by_cases hskip : lookupP R p = some d
    · rw [writeLoop_skip_cons false put R p d rest hskip] at ha
      exact ih a ha
    · rw [writeLoop_false_cons put R p d rest hskip, List.mem_cons] at ha
      rcases ha with ha | ha
      · exact ⟨p, d, ha⟩
      · exact ih a ha

theorem deleteLoop_eq_nil (dry : Bool) (del : String → Except String Unit)
    (L : PolicyMap) :
    ∀ R : PolicyMap, (∀ p ∈ keysP R, ¬(lookupP L p = none)) →
      deleteLoop dry del L R = [] := by
  intro R
  induction R with
  | nil => intro _; simp [deleteLoop]
  | cons pc rest ih =>
    obtain ⟨p, v⟩ := pc
    intro h
    have hp : ¬(lookupP L p = none) := h p (by rw [keysP_cons]; exact List.mem_cons_self _ _)
    rw [deleteLoop_cons_of_present dry del L p v rest hp]
    exact ih (fun q hq => h q (by rw [keysP_cons]; exact List.mem_cons_of_mem _ hq))

theorem writeLoop_eq_nil (dry : Bool) (put : String → String → Except String Unit)
    (R : PolicyMap) :
    ∀ L : PolicyMap, (∀ pc ∈ L, lookupP R pc.1 = some pc.2) →
      writeLoop dry put R L = [] := by
  intro L
  induction L with
  | nil => intro _; simp [writeLoop]
  | cons pc rest ih =>
    obtain ⟨p, d⟩ := pc
    intro h
    have hp : lookupP R p = some d := h (p, d) (List.mem_cons_self _ _)
    rw [writeLoop_skip_cons dry put R p d rest hp]
    exact ih (fun q hq => h q (List.mem_cons_of_mem _ hq))

/-! ### Applying the restore trace to the store -/

theorem apply_deleteLoop (del : String → Except String Unit) (L : PolicyMap) :
    ∀ (R M : PolicyMap) (n : String),
      lookupP (applyActions (deleteLoop false del L R) M) n =
        if n ∈ keysP R ∧ lookupP L n = none then none else lookupP M n := by
  intro R
  induction R with
  | nil => intro M n; simp [deleteLoop, applyActions, keysP_nil]
  | cons pc rest ih =>
    obtain ⟨p, v⟩ := pc
    intro M n
    by_cases hl : lookupP L p = none
    · rw [deleteLoop_false_cons_of_absent del L p v rest hl]
      rw [show applyActions (Action.deletePolicy p :: deleteLoop false del L rest) M =
            applyActions (deleteLoop false del L rest) (eraseP M p) from rfl]
      rw [ih (eraseP M p) n, lookupP_eraseP, keysP_cons]
      by_cases hnp : n = p
      · subst hnp
        simp [hl]
      · have hpn : ¬(p = n) := fun h => hnp h.symm
        simp [hnp, hpn]
    · rw [deleteLoop_cons_of_present false del L p v rest hl, ih M n, keysP_cons]
      by_cases hnp : n = p
      · subst hnp
        simp [hl]
      · simp [hnp]

theorem apply_writeLoop (put : String → String → Except String Unit) (R : PolicyMap) :
    ∀ (L M : PolicyMap), (keysP L).Nodup → ∀ n : String,
      lookupP (applyActions (writeLoop false put R L) M) n =
        match lookupP L n with
        | some c => if lookupP R n = some c then lookupP M n else some c
        | none => lookupP M n := by
  intro L
  induction L with
  | nil => intro M _ n; simp [writeLoop, applyActions, lookupP]
  | cons pc rest ih =>
    obtain ⟨p, d⟩ := pc
    intro M hnd n
    rw [keysP_cons, List.nodup_cons] at hnd
    by_cases hskip : lookupP R p = some d
    · rw [writeLoop_skip_cons false put R p d rest hskip, ih M hnd.2 n]
      by_cases hnp : n = p
      · subst hnp
        rw [lookupP_eq_none_of_not_mem hnd.1]
        simp [lookupP, hskip]
      · have hpn : ¬(p = n) := fun h => hnp h.symm
        simp [lookupP, hpn]
    · rw [writeLoop_false_cons put R p d rest hskip]
      rw [show applyActions (Action.putPolicy p d :: writeLoop false put R rest) M =
            applyActions (writeLoop false put R rest) (insertP M p d) from rfl]
      rw [ih (insertP M p d) hnd.2 n]
      by_cases hnp : n = p
      · subst hnp
        rw [lookupP_eq_none_of_not_mem hnd.1]
        simp [lookupP, lookupP_insertP, hskip]
      · have hpn : ¬(p = n) := fun h => hnp h.symm
        simp [lookupP, lookupP_insertP, hpn]

theorem mirror_lookup (put : String → String → Except String Unit)
    (del : String → Except String Unit) (R L : PolicyMap)
    (hL : (keysP L).Nodup) (n : String) :
    lookupP (applyActions (restoreCore false put del R L) R) n = lookupP L n := by
  rw [restoreCore, applyActions_append]
  rw [apply_writeLoop put R L (applyActions (deleteLoop false del L R) R) hL n]
  have hM1 := apply_deleteLoop del L R R n
  cases hln : lookupP L n with
  | some c =>
    simp only [hln]
    by_cases hr : lookupP R n = some c
    · rw [if_pos hr, hM1, hln]
      simp [hr]
    · rw [if_neg hr]
  | none =>
    simp only [hln]
    rw [hM1, hln]
    by_cases hkr : n ∈ keysP R
    · simp [hkr]
    · simp [hkr, lookupP_eq_none_of_not_mem hkr]

theorem apply_map_put (P : PolicyMap) :
    ∀ (M : PolicyMap), (keysP P).Nodup → ∀ n : String,
      lookupP (applyActions (P.map (fun pc => Action.putPolicy pc.1 pc.2)) M) n =
        match lookupP P n with
        | some c => some c
        | none => lookupP M n := by
  induction P with
  | nil => intro M _ n; simp [applyActions, lookupP]
  | cons pc rest ih =>
    obtain ⟨p, d⟩ := pc
    intro M hnd n
    rw [keysP_cons, List.nodup_cons] at hnd
    rw [List.map_cons]
    rw [show applyActions (Action.putPolicy p d ::
          rest.map (fun pc => Action.putPolicy pc.1 pc.2)) M =
        applyActions (rest.map (fun pc => Action.putPolicy pc.1 pc.2))
          (insertP M p d) from rfl]
    rw [ih (insertP M p d) hnd.2 n]
    by_cases hnp : n = p
    · subst hnp
      rw [lookupP_eq_none_of_not_mem hnd.1]
      simp [lookupP, lookupP_insertP]
    · have hpn : ¬(p = n) := fun h => hnp h.symm
      simp [lookupP, lookupP_insertP, hpn]

/-! ### Path computations on backup file names -/

theorem takeWhile_all_append {α : Type} (p : α → Bool) :
    ∀ A : List α, (∀ c ∈ A, p c = true) → ∀ (x : α) (B : List α), p x = false →
      (A ++ x :: B).takeWhile p = A := by
  intro A
  induction A with
  | nil =>
    intro _ x B hx
    simp [List.takeWhile, hx]
  | cons a A2 ih =>
    intro h x B hx
    have ha : p a = true := h a (List.mem_cons_self _ _)
    simp only [List.cons_append, List.takeWhile, ha]
    rw [show A2.append (x :: B) = A2 ++ x :: B from rfl,
      ih (fun c hc => h c (List.mem_cons_of_mem _ hc)) x B hx]

theorem extRevAux_hcl (rest acc : List Char) :
    extRevAux ('l' :: 'c' :: 'h' :: '.' :: rest) acc = '.' :: 'h' :: 'c' :: 'l' :: acc := rfl

theorem goExt_append_hcl (q : String) :
    goExt (q ++ String.mk ['.', 'h', 'c', 'l']) = String.mk ['.', 'h', 'c', 'l'] := by
  unfold goExt
  rw [String.data_append, List.reverse_append]
  rw [show (['.', 'h', 'c', 'l'] : List Char).reverse = ['l', 'c', 'h', '.'] from rfl]
  rw [show ('l' :: 'c' :: 'h' :: '.' :: []) ++ q.data.reverse =
        'l' :: 'c' :: 'h' :: '.' :: q.data.reverse from rfl]
  rw [extRevAux_hcl]

theorem data_joinPath (d x : String) :
    (joinPath d x).data = d.data ++ '/' :: x.data := by
  show (d ++ String.mk ['/'] ++ x).data = d.data ++ '/' :: x.data
  rw [String.data_append, String.data_append]
  simp

theorem goBase_joinPath (d n : String) (h : '/' ∉ n.data) :
    goBase (joinPath d (n ++ String.mk ['.', 'h', 'c', 'l'])) =
      n ++ String.mk ['.', 'h', 'c', 'l'] := by
  have hp : (joinPath d (n ++ String.mk ['.', 'h', 'c', 'l'])).data =
      d.data ++ '/' :: (n.data ++ ['.', 'h', 'c', 'l']) := by
    rw [data_joinPath, String.data_append]
  have hne : joinPath d (n ++ String.mk ['.', 'h', 'c', 'l']) ≠ "" := by
    intro hc
    have hdata : (joinPath d (n ++ String.mk ['.', 'h', 'c', 'l'])).data = [] := by
      rw [hc]
    rw [hp] at hdata
    simp at hdata
  unfold goBase
  rw [if_neg hne, hp]
  have hrev : (d.data ++ '/' :: (n.data ++ ['.', 'h', 'c', 'l'])).reverse =
      'l' :: 'c' :: 'h' :: '.' :: (n.data.reverse ++ '/' :: d.data.reverse) := by
    simp
  rw [hrev]
  rw [show List.dropWhile (fun c => c = '/')
        ('l' :: 'c' :: 'h' :: '.' :: (n.data.reverse ++ '/' :: d.data.reverse)) =
      'l' :: 'c' :: 'h' :: '.' :: (n.data.reverse ++ '/' :: d.data.reverse) from by
    simp [List.dropWhile]]
  rw [if_neg (by simp)]
  have htake : List.takeWhile (fun c => decide (c ≠ '/'))
      (('l' :: 'c' :: 'h' :: '.' :: n.data.reverse) ++ '/' :: d.data.reverse) =
      'l' :: 'c' :: 'h' :: '.' :: n.data.reverse := by
    apply takeWhile_all_append
    · intro c hc
      rcases List.mem_cons.mp hc with hc1 | hc
      · subst hc1; rfl
      rcases List.mem_cons.mp hc with hc1 | hc
      · subst hc1; rfl
      rcases List.mem_cons.mp hc with hc1 | hc
      · subst hc1; rfl
      rcases List.mem_cons.mp hc with hc1 | hc
      · subst hc1; rfl
      · have hcn : c ∈ n.data := List.mem_reverse.mp hc
        have : c ≠ '/' := fun hcc => h (hcc ▸ hcn)
        simpa using this
    · rfl
  rw [show 'l' :: 'c' :: 'h' :: '.' :: (n.data.reverse ++ '/' :: d.data.reverse) =
        ('l' :: 'c' :: 'h' :: '.' :: n.data.reverse) ++ '/' :: d.data.reverse from by
    simp]
  rw [htake]
  have hrev2 : ('l' :: 'c' :: 'h' :: '.' :: n.data.reverse).reverse =
      n.data ++ ['.', 'h', 'c', 'l'] := by
    simp
  rw [hrev2]
  rfl

theorem policyName_def (p : String) :
    policyName p = String.mk ((goBase p).data.take
      ((goBase p).data.length - (goExt (goBase p)).data.length)) := rfl

theorem policyName_joinPath (d n : String) (h : '/' ∉ n.data) :
    policyName (joinPath d (n ++ String.mk ['.', 'h', 'c', 'l'])) = n := by
  rw [policyName_def]
  rw [goBase_joinPath d n h, goExt_append_hcl n]
  rw [String.data_append]
  rw [show (String.mk ['.', 'h', 'c', 'l']).data = ['.', 'h', 'c', 'l'] from rfl]
  rw [List.length_append]
  rw [show (['.', 'h', 'c', 'l'] : List Char).length = 4 from rfl]
  rw [show n.data.length + 4 - 4 = n.data.length from by omega]
  rw [List.take_left]

theorem goExt_joinPath (d n : String) :
    goExt (joinPath d (n ++ String.mk ['.', 'h', 'c', 'l'])) =
      String.mk ['.', 'h', 'c', 'l'] := by
  show goExt (d ++ String.mk ['/'] ++ (n ++ String.mk ['.', 'h', 'c', 'l'])) = _
  rw [← String.append_assoc]
  exact goExt_append_hcl (d ++ String.mk ['/'] ++ n)

/-! ### Normal forms of whole runs -/

theorem remotePairs_remoteOf_fst {R : PolicyMap} (hnd : (keysP R).Nodup) :
    (remotePairs (remoteOf R)).1 = R := by
  rw [remotePairs_remoteOf hnd]

theorem remotePairs_remoteOf_snd {R : PolicyMap} (hnd : (keysP R).Nodup) :
    (remotePairs (remoteOf R)).2 = none := by
  rw [remotePairs_remoteOf hnd]

theorem remoteWalk_addPolicy (r : Remote) :
    walkRemotePolicies r (fun p c m => addPolicy p c m) ([] : PolicyMap) =
      (mapOf (remotePairs r).1, (remotePairs r).2) := by
  rw [walkRemotePolicies_eq r (fun p c m => addPolicy p c m) (fun _ _ _ => rfl) []]
  rfl

theorem dirWalk_addPolicy (events : List WalkEvent) :
    walkDirEvents (fun p c m => addPolicy p c m) events ([] : PolicyMap) =
      (mapOf (scanPairs events).1, (scanPairs events).2) := by
  rw [walkDirEvents_eq_scan (fun p c m => addPolicy p c m) (fun _ _ _ => rfl) events []]
  rfl

theorem restorePolicies_run (dry : Bool) (r : Remote) (events : List WalkEvent)
    (put : String → String → Except String Unit) (del : String → Except String Unit) :
    restorePolicies (Except.ok ()) dry r events put del =
      match (remotePairs r).2 with
      | some e => ([], some e)
      | none =>
        match (scanPairs events).2 with
        | some e => ([], some e)
        | none =>
          (restoreCore dry put del (mapOf (remotePairs r).1)
            (mapOf (scanPairs events).1), none) := by
  cases h1 : (remotePairs r).2 with
  | some e =>
    simp [restorePolicies, remoteWalk_addPolicy, h1]
  | none =>
    cases h2 : (scanPairs events).2 with
    | some e =>
      simp [restorePolicies, remoteWalk_addPolicy, dirWalk_addPolicy, h1, h2]
    | none =>
      simp [restorePolicies, remoteWalk_addPolicy, dirWalk_addPolicy, h1, h2]

theorem uploadPolicies_false_run (events : List WalkEvent)
    (put : String → String → Except String Unit) :
    uploadPolicies (Except.ok ()) false events put =
      ((scanPairs events).1.map (fun pc => Action.putPolicy pc.1 pc.2),
       (scanPairs events).2) := by
  rw [show uploadPolicies (Except.ok ()) false events put =
        walkDirEvents (uploadStep false put) events [] from rfl]
  rw [walkDirEvents_eq_scan (uploadStep false put) (fun _ _ _ => rfl) events []]
  have hfold := foldl_eq_genAll
    (fun (s : List Action) (pc : String × String) => (uploadStep false put pc.1 pc.2 s).1)
    (fun pc => [Action.putPolicy pc.1 pc.2]) (fun _ _ => rfl)
    (scanPairs events).1 ([] : List Action)
  rw [genAll_singleton, List.nil_append] at hfold
  rw [hfold]

theorem uploadPolicies_true_run (events : List WalkEvent)
    (put : String → String → Except String Unit) :
    uploadPolicies (Except.ok ()) true events put =
      (genAll (fun pc =>
          [Action.printMsg ("Would have written policy " ++ pc.1 ++ " with content:"),
           Action.printMsg pc.2]) (scanPairs events).1,
       (scanPairs events).2) := by
  rw [show uploadPolicies (Except.ok ()) true events put =
        walkDirEvents (uploadStep true put) events [] from rfl]
  rw [walkDirEvents_eq_scan (uploadStep true put) (fun _ _ _ => rfl) events []]
  have hfold := foldl_eq_genAll
    (fun (s : List Action) (pc : String × String) => (uploadStep true put pc.1 pc.2 s).1)
    (fun pc =>
      [Action.printMsg ("Would have written policy " ++ pc.1 ++ " with content:"),
       Action.printMsg pc.2]) (fun _ _ => rfl)
    (scanPairs events).1 ([] : List Action)
  rw [List.nil_append] at hfold
  rw [hfold]

theorem backupPolicies_false_run (dir : String) (R : PolicyMap)
    (hR : (keysP R).Nodup) :
    backupPolicies (Except.ok ()) false dir (remoteOf R) okWrite =
      (R.map (fun pc =>
        Action.writeFile (joinPath dir (pc.1 ++ String.mk ['.', 'h', 'c', 'l'])) pc.2),
       none) := by
  rw [show backupPolicies (Except.ok ()) false dir (remoteOf R) okWrite =
      walkRemotePolicies (remoteOf R)
        (backupStep false dir okWrite) [] from rfl]
  rw [walkRemotePolicies_eq (remoteOf R)
    (backupStep false dir okWrite) (fun _ _ _ => rfl) []]
  rw [remotePairs_remoteOf_fst hR, remotePairs_remoteOf_snd hR]
  have hfold := foldl_eq_genAll
    (fun (s : List Action) (pc : String × String) =>
      (backupStep false dir okWrite pc.1 pc.2 s).1)
    (fun pc =>
      [Action.writeFile (joinPath dir (pc.1 ++ String.mk ['.', 'h', 'c', 'l'])) pc.2])
    (fun _ _ => rfl) R ([] : List Action)
  rw [genAll_singleton, List.nil_append] at hfold
  rw [hfold]

theorem backupPolicies_true_run (dir : String) (r : Remote)
    (w : String → String → Except String Unit) :
    backupPolicies (Except.ok ()) true dir r w =
      (genAll (fun pc =>
          [Action.printMsg ("Would have written " ++ pc.1 ++ ".hcl with content:"),
           Action.printMsg pc.2]) (remotePairs r).1,
       (remotePairs r).2) := by
  rw [show backupPolicies (Except.ok ()) true dir r w =
        walkRemotePolicies r (backupStep true dir w) [] from rfl]
  rw [walkRemotePolicies_eq r (backupStep true dir w) (fun _ _ _ => rfl) []]
  have hfold := foldl_eq_genAll
    (fun (s : List Action) (pc : String × String) => (backupStep true dir w pc.1 pc.2 s).1)
    (fun pc =>
      [Action.printMsg ("Would have written " ++ pc.1 ++ ".hcl with content:"),
       Action.printMsg pc.2]) (fun _ _ => rfl)
    (remotePairs r).1 ([] : List Action)
  rw [List.nil_append] at hfold
  rw [hfold]

/-! ### Shapes of loop output -/

theorem deleteLoop_no_put (dry : Bool) (del : String → Except String Unit)
    (L R : PolicyMap) :
    ∀ a ∈ deleteLoop dry del L R, ∀ n c, a ≠ Action.putPolicy n c := by
  intro a ha n c heq
  cases dry with
  | false =>
    obtain ⟨m, hm⟩ := deleteLoop_false_delete del L R a ha
    rw [heq] at hm
    simp at hm
  | true =>
    have hp := deleteLoop_true_print del L R a ha
    rw [heq] at hp
    simp [isPrint] at hp

theorem writeLoop_no_delete (dry : Bool) (put : String → String → Except String Unit)
    (R L : PolicyMap) :
    ∀ a ∈ writeLoop dry put R L, ∀ n, a ≠ Action.deletePolicy n := by
  intro a ha n heq
  cases dry with
  | false =>
    obtain ⟨m, c, hm⟩ := writeLoop_false_put put R L a ha
    rw [heq] at hm
    simp at hm
  | true =>
    have hp := writeLoop_true_print put R L a ha
    rw [heq] at hp
    simp [isPrint] at hp

/-! ### Replaying a backup's files as a directory walk -/

theorem eventsOfTrace_writes (pathOf : String × String → String) :
    ∀ l : List (String × String),
      eventsOfTrace (l.map (fun pc => Action.writeFile (pathOf pc) pc.2)) =
        l.map (fun pc => WalkEvent.entry (pathOf pc) false (Except.ok pc.2)) := by
  intro l
  induction l with
  | nil => rfl
  | cons pc l2 ih => simp [eventsOfTrace, ih]

theorem scanPairs_entries (pathOf : String × String → String) :
    ∀ l : List (String × String),
      (∀ pc ∈ l, goExt (pathOf pc) = String.mk ['.', 'h', 'c', 'l']) →
      scanPairs (l.map (fun pc => WalkEvent.entry (pathOf pc) false (Except.ok pc.2))) =
        (l.map (fun pc => (policyName (pathOf pc), pc.2)), none) := by
  intro l
  induction l with
  | nil => intro _; rfl
  | cons pc l2 ih =>
    intro h
    have hpc : goExt (pathOf pc) = String.mk ['.', 'h', 'c', 'l'] :=
      h pc (List.mem_cons_self _ _)
    have hrest := ih (fun q hq => h q (List.mem_cons_of_mem _ hq))
    simp [scanPairs, hpc, hrest]

theorem restorePolicies_run_ok (dry : Bool) (r : Remote) (events : List WalkEvent)
    (put : String → String → Except String Unit) (del : String → Except String Unit)
    (h1 : (remotePairs r).2 = none) (h2 : (scanPairs events).2 = none) :
    restorePolicies (Except.ok ()) dry r events put del =
      (restoreCore dry put del (mapOf (remotePairs r).1)
        (mapOf (scanPairs events).1), none) := by
  rw [restorePolicies_run, h1, h2]

/-! ### The claims -/

/-- C7: the directory scanner selects exactly the non-directory entries
whose extension is `.hcl`, yields for each the pair of the base name with
the extension removed and the file content, in walk order, and propagates
the first walk or read error, halting the walk: running the walker with
the collecting callback agrees with the direct specification
`scanPairs`. -/
theorem scannerCorrect (evs : List WalkEvent) : collectPairs evs = scanPairs evs := by
  unfold collectPairs
  rw [walkDirEvents_eq_scan (fun p c l => (l ++ [(p, c)], none)) (fun _ _ _ => rfl) evs []]
  have hfold := foldl_eq_genAll
    (fun (s : List (String × String)) (pc : String × String) =>
      ((fun p c l => (l ++ [(p, c)], (none : Option String))) pc.1 pc.2 s).1)
    (fun pc => [(pc.1, pc.2)]) (fun _ _ => rfl)
    (scanPairs evs).1 ([] : List (String × String))
  rw [genAll_singleton, List.nil_append] at hfold
  rw [hfold]
  have hmap : List.map (fun pc : String × String => (pc.1, pc.2)) (scanPairs evs).1 =
      (scanPairs evs).1 := by simp
  rw [hmap]

/-- C1 is violated by the code: `uploadPolicies` and `restorePolicies`
discard the value returned by `PutPolicy` and `DeletePolicy`, so a run in
which every remote put (and delete) fails still returns `nil`.  Here the
put oracle always fails, yet the upload run returns no error, and the put
and delete oracles always fail, yet the restore run (which must delete
the remote-only policy) returns no error. -/
theorem mutationErrorsIgnored :
    uploadPolicies (Except.ok ()) false
        [WalkEvent.entry ("d/a.hcl") false (Except.ok ("content one"))]
        (fun _ _ => Except.error ("put failed")) =
      ([Action.putPolicy ("a") ("content one")], none)
    ∧ restorePolicies (Except.ok ()) false (remoteOf [(("b"), ("doc"))]) []
        (fun _ _ => Except.error ("put failed"))
        (fun _ => Except.error ("delete failed")) =
      ([Action.deletePolicy ("b")], none) := by
  exact ⟨rfl, rfl⟩

/-- C2: for every remote map R and local map L, the diff-and-apply core
of restore deletes exactly the names of R that are not names of L, and
puts exactly the pairs whose local content is not the remote content
(in particular no put is issued when the contents are byte-identical). -/
theorem restoreMirrorDiff (put : String → String → Except String Unit)
    (del : String → Except String Unit) (R L : PolicyMap)
    (hL : (keysP L).Nodup) :
    (∀ n, Action.deletePolicy n ∈ restoreCore false put del R L ↔
        n ∈ keysP R ∧ n ∉ keysP L)
  ∧ (∀ n c, Action.putPolicy n c ∈ restoreCore false put del R L ↔
        lookupP L n = some c ∧ ¬(lookupP R n = some c)) := by
  constructor
  · intro n
    have hconv : n ∉ keysP L ↔ lookupP L n = none := by
      constructor
      · intro h
        exact lookupP_eq_none_of_not_mem h
      · intro h hm
        exact absurd h (by simpa using (mem_keysP_iff L n).mp hm)
    rw [restoreCore, List.mem_append, hconv]
    constructor
    · rintro (h | h)
      · exact (mem_deleteLoop_iff del L R n).mp h
      · exact absurd rfl (writeLoop_no_delete false put R L _ h n)
    · intro h
      exact Or.inl ((mem_deleteLoop_iff del L R n).mpr h)
  · intro n c
    rw [restoreCore, List.mem_append]
    constructor
    · rintro (h | h)
      · exact absurd rfl (deleteLoop_no_put false del L R _ h n c)
      · exact (mem_writeLoop_iff put R L hL n c).mp h
    · intro h
      exact Or.inr ((mem_writeLoop_iff put R L hL n c).mpr h)

/-- Witness for C2 at a concrete pair of maps: the remote-only policy
is deleted and the differing local policy is written. -/
theorem restoreMirrorDiffWitness :
    (keysP [(("b"), ("2"))]).Nodup
    ∧ (Action.deletePolicy ("a") ∈
        restoreCore false okWrite okDelete [(("a"), ("1"))] [(("b"), ("2"))] ↔
        ("a") ∈ keysP [(("a"), ("1"))] ∧ ("a") ∉ keysP [(("b"), ("2"))])
    ∧ (Action.putPolicy ("b") ("2") ∈
        restoreCore false okWrite okDelete [(("a"), ("1"))] [(("b"), ("2"))] ↔
        lookupP [(("b"), ("2"))] ("b") = some ("2") ∧
          ¬(lookupP [(("a"), ("1"))] ("b") = some ("2"))) :=
  ⟨by decide,
   (restoreMirrorDiff okWrite okDelete [(("a"), ("1"))] [(("b"), ("2"))]
     (by decide)).1 ("a"),
   (restoreMirrorDiff okWrite okDelete [(("a"), ("1"))] [(("b"), ("2"))]
     (by decide)).2 ("b") ("2")⟩

/-- C3: an upload run never deletes a remote policy, and therefore every
policy name present in the remote store before the run is still present
after its trace of remote mutations is applied. -/
theorem uploadNeverDeletes (client : Except String Unit) (dry : Bool)
    (events : List WalkEvent) (put : String → String → Except String Unit)
    (R : PolicyMap) :
    (∀ a ∈ (uploadPolicies client dry events put).1, ∀ n, a ≠ Action.deletePolicy n)
  ∧ (∀ k, k ∈ keysP R →
      k ∈ keysP (applyActions (uploadPolicies client dry events put).1 R)) := by
  have hmain : ∀ a ∈ (uploadPolicies client dry events put).1,
      ∀ n, a ≠ Action.deletePolicy n := by
    cases client with
    | error e =>
      intro a ha
      simp [uploadPolicies] at ha
    | ok u =>
      cases u
      cases dry with
      | false =>
        intro a ha n heq
        have ha2 : a ∈ (scanPairs events).1.map
            (fun pc => Action.putPolicy pc.1 pc.2) := by
          rw [uploadPolicies_false_run] at ha
          exact ha
        obtain ⟨pc, _, habs⟩ := List.mem_map.mp ha2
        rw [heq] at habs
        simp at habs
      | true =>
        intro a ha n heq
        have ha2 : a ∈ genAll (fun pc =>
            [Action.printMsg ("Would have written policy " ++ pc.1 ++ " with content:"),
             Action.printMsg pc.2]) (scanPairs events).1 := by
          rw [uploadPolicies_true_run] at ha
          exact ha
        obtain ⟨pc, _, habs⟩ := genAll_mem ha2
        rw [heq] at habs
        simp at habs
  exact ⟨hmain, fun k hk => mem_keysP_applyActions_of_no_delete _ hmain R k hk⟩

/-- Witness for C3 at a concrete run: the single trace action is not a
deletion, and the remote-only policy name survives the run. -/
theorem uploadNeverDeletesWitness :
    Action.putPolicy ("a") ("1") ≠ Action.deletePolicy ("b")
    ∧ ("b") ∈ keysP (applyActions (uploadPolicies (Except.ok ()) false
        [WalkEvent.entry ("d/a.hcl") false (Except.ok ("1"))] okWrite).1
        [(("b"), ("2"))]) :=
  ⟨(uploadNeverDeletes (Except.ok ()) false
      [WalkEvent.entry ("d/a.hcl") false (Except.ok ("1"))] okWrite
      [(("b"), ("2"))]).1 (Action.putPolicy ("a") ("1")) (by decide) ("b"),
   (uploadNeverDeletes (Except.ok ()) false
      [WalkEvent.entry ("d/a.hcl") false (Except.ok ("1"))] okWrite
      [(("b"), ("2"))]).2 ("b") (by decide)⟩

/-- C4: with the dry-run flag set, the trace of every mode consists of
print actions only: no file is written and no remote policy is put or
deleted, each suppressed mutation appearing as printed output instead. -/
theorem dryRunNoMutations (client : Except String Unit) (dir : String)
    (r : Remote) (w : String → String → Except String Unit)
    (events : List WalkEvent) (put : String → String → Except String Unit)
    (del : String → Except String Unit) :
    (∀ a ∈ (backupPolicies client true dir r w).1, isPrint a = true)
  ∧ (∀ a ∈ (uploadPolicies client true events put).1, isPrint a = true)
  ∧ (∀ a ∈ (restorePolicies client true r events put del).1, isPrint a = true) := by
  refine ⟨?_, ?_, ?_⟩
  · cases client with
    | error e =>
      intro a ha
      simp [backupPolicies] at ha
    | ok u =>
      cases u
      intro a ha
      have ha2 : a ∈ genAll (fun pc =>
          [Action.printMsg ("Would have written " ++ pc.1 ++ ".hcl with content:"),
           Action.printMsg pc.2]) (remotePairs r).1 := by
        rw [backupPolicies_true_run] at ha
        exact ha
      obtain ⟨pc, _, hmem⟩ := genAll_mem ha2
      simp only [List.mem_cons, List.not_mem_nil, or_false] at hmem
      rcases hmem with hmem | hmem
      · rw [hmem]; rfl
      · rw [hmem]; rfl
  · cases client with
    | error e =>
      intro a ha
      simp [uploadPolicies] at ha
    | ok u =>
      cases u
      intro a ha
      have ha2 : a ∈ genAll (fun pc =>
          [Action.printMsg ("Would have written policy " ++ pc.1 ++ " with content:"),
           Action.printMsg pc.2]) (scanPairs events).1 := by
        rw [uploadPolicies_true_run] at ha
        exact ha
      obtain ⟨pc, _, hmem⟩ := genAll_mem ha2
      simp only [List.mem_cons, List.not_mem_nil, or_false] at hmem
      rcases hmem with hmem | hmem
      · rw [hmem]; rfl
      · rw [hmem]; rfl
  · cases client with
    | error e =>
      intro a ha
      simp [restorePolicies] at ha
    | ok u =>
      cases u
      intro a ha
      rw [restorePolicies_run] at ha
      cases h1 : (remotePairs r).2 with
      | some e =>
        rw [h1] at ha
        simp at ha
      | none =>
        rw [h1] at ha
        cases h2 : (scanPairs events).2 with
        | some e =>
          rw [h2] at ha
          simp at ha
        | none =>
          rw [h2] at ha
          have ha2 : a ∈ restoreCore true put del (mapOf (remotePairs r).1)
              (mapOf (scanPairs events).1) := ha
          rw [restoreCore] at ha2
          rcases List.mem_append.mp ha2 with h | h
          · exact deleteLoop_true_print del _ _ a h
          · exact writeLoop_true_print put _ _ a h

/-- Witness for C4 at a concrete dry run of each mode, checked on the
first action each trace contains. -/
theorem dryRunNoMutationsWitness :
    isPrint (Action.printMsg ("Would have written b.hcl with content:")) = true
    ∧ isPrint (Action.printMsg ("Would have written policy a with content:")) = true
    ∧ isPrint (Action.printMsg ("Would have deleted policy b")) = true :=
  ⟨(dryRunNoMutations (Except.ok ()) ("bak") (remoteOf [(("b"), ("2"))]) okWrite
      [WalkEvent.entry ("d/a.hcl") false (Except.ok ("1"))] okWrite okDelete).1
      (Action.printMsg ("Would have written b.hcl with content:")) (by decide),
   (dryRunNoMutations (Except.ok ()) ("bak") (remoteOf [(("b"), ("2"))]) okWrite
      [WalkEvent.entry ("d/a.hcl") false (Except.ok ("1"))] okWrite okDelete).2.1
      (Action.printMsg ("Would have written policy a with content:")) (by decide),
   (dryRunNoMutations (Except.ok ()) ("bak") (remoteOf [(("b"), ("2"))]) okWrite
      [WalkEvent.entry ("d/a.hcl") false (Except.ok ("1"))] okWrite okDelete).2.2
      (Action.printMsg ("Would have deleted policy b")) (by decide)⟩

/-- C10: in the remote-mutation trace of a restore run all deletions
precede all writes: the trace splits into a prefix with no put and a
suffix with no delete. -/
theorem restoreDeletesBeforeWrites (client : Except String Unit) (dry : Bool)
    (r : Remote) (events : List WalkEvent)
    (put : String → String → Except String Unit)
    (del : String → Except String Unit) :
    ∃ pre post,
      (restorePolicies client dry r events put del).1 = pre ++ post
      ∧ (∀ a ∈ pre, ∀ n c, a ≠ Action.putPolicy n c)
      ∧ (∀ a ∈ post, ∀ n, a ≠ Action.deletePolicy n) := by
  cases client with
  | error e =>
    exact ⟨[], [], rfl, by simp, by simp⟩
  | ok u =>
    cases u
    rw [restorePolicies_run]
    cases h1 : (remotePairs r).2 with
    | some e =>
      exact ⟨[], [], rfl, by simp, by simp⟩
    | none =>
      cases h2 : (scanPairs events).2 with
      | some e =>
        exact ⟨[], [], rfl, by simp, by simp⟩
      | none =>
        refine ⟨deleteLoop dry del (mapOf (scanPairs events).1) (mapOf (remotePairs r).1),
          writeLoop dry put (mapOf (remotePairs r).1) (mapOf (scanPairs events).1),
          rfl, ?_, ?_⟩
        · exact deleteLoop_no_put dry del _ _
        · exact writeLoop_no_delete dry put _ _

/-- C9: the dry-run flag suppresses only mutations, not reads.  Client
creation still happens (its failure aborts a dry run of every mode), the
remote listing and the per-policy fetches still happen (their failure
aborts a dry run of backup and of restore), and the local directory walk
still happens (its failure aborts a dry run of upload and of restore);
in every case the run returns that error. -/
theorem dryRunStillReads (e dir : String) (r : Remote)
    (w put : String → String → Except String Unit)
    (del : String → Except String Unit)
    (R : PolicyMap) (events : List WalkEvent) (hR : (keysP R).Nodup) :
    (backupPolicies (Except.error e) true dir r w).2 = some e
  ∧ (uploadPolicies (Except.error e) true events put).2 = some e
  ∧ (restorePolicies (Except.error e) true r events put del).2 = some e
  ∧ (r.listResult = Except.error e →
      (backupPolicies (Except.ok ()) true dir r w).2 = some e
      ∧ (restorePolicies (Except.ok ()) true r events put del).2 = some e)
  ∧ (∀ p, r.listResult = Except.ok [p] → r.getPolicy p = Except.error e →
      (backupPolicies (Except.ok ()) true dir r w).2 = some e
      ∧ (restorePolicies (Except.ok ()) true r events put del).2 = some e)
  ∧ (∀ pth,
      (uploadPolicies (Except.ok ()) true
        (WalkEvent.failure pth e :: events) put).2 = some e
      ∧ (restorePolicies (Except.ok ()) true (remoteOf R)
          (WalkEvent.failure pth e :: events) put del).2 = some e) := by
  refine ⟨rfl, rfl, rfl, ?_, ?_, ?_⟩
  · intro h
    constructor
    · simp [backupPolicies, walkRemotePolicies, h]
    · simp [restorePolicies, walkRemotePolicies, h]
  · intro p h1 h2
    constructor
    · simp [backupPolicies, walkRemotePolicies, remoteFold, h1, h2]
    · simp [restorePolicies, walkRemotePolicies, remoteFold, h1, h2]
  · intro pth
    constructor
    · rfl
    · rw [restorePolicies_run, remotePairs_remoteOf_snd hR]
      rfl

/-- C8: two selected files with the same base name map to the same
policy name: the map built by restore's directory walk keeps the content
of the later file, the upload trace puts both contents in walk order,
and applying that trace leaves the later content in the store. -/
theorem duplicateBaseNameLastWins (p1 p2 n c1 c2 : String)
    (put : String → String → Except String Unit) (M : PolicyMap)
    (h1 : goExt p1 = String.mk ['.', 'h', 'c', 'l'])
    (h2 : goExt p2 = String.mk ['.', 'h', 'c', 'l'])
    (hn1 : policyName p1 = n) (hn2 : policyName p2 = n) (hne : p1 ≠ p2) :
    walkDirEvents (fun p c m => addPolicy p c m)
        [WalkEvent.entry p1 false (Except.ok c1),
         WalkEvent.entry p2 false (Except.ok c2)] ([] : PolicyMap) =
      ([(n, c2)], none)
  ∧ (uploadPolicies (Except.ok ()) false
        [WalkEvent.entry p1 false (Except.ok c1),
         WalkEvent.entry p2 false (Except.ok c2)] put).1 =
      [Action.putPolicy n c1, Action.putPolicy n c2]
  ∧ lookupP (applyActions [Action.putPolicy n c1, Action.putPolicy n c2] M) n =
      some c2 := by
  refine ⟨?_, ?_, ?_⟩
  · simp [walkDirEvents, addPolicy, insertP, h1, h2, hn1, hn2]
  · rw [uploadPolicies_false_run]
    simp [scanPairs, h1, h2, hn1, hn2]
  · simp [applyActions, lookupP_insertP]

/-- Witness for C8 with two files of the same base name in different
subdirectories. -/
theorem duplicateBaseNameLastWinsWitness :
    goExt ("d/x/a.hcl") = String.mk ['.', 'h', 'c', 'l']
    ∧ policyName ("d/x/a.hcl") = ("a")
    ∧ lookupP (applyActions
        [Action.putPolicy ("a") ("1"), Action.putPolicy ("a") ("2")] []) ("a") =
      some ("2") :=
  ⟨by decide, by decide,
    (duplicateBaseNameLastWins ("d/x/a.hcl") ("d/y/a.hcl") ("a") ("1") ("2")
      okWrite [] (by decide) (by decide) (by decide) (by decide) (by decide)).2.2⟩

/-- C5: running the full mirror twice from the same directory is
idempotent.  After a first restore run whose remote mutations all take
effect, a second run from the same local events performs no remote
mutation at all: its trace is empty and it reports no error. -/
theorem restoreIdempotent (R : PolicyMap) (events : List WalkEvent)
    (put : String → String → Except String Unit)
    (del : String → Except String Unit)
    (hR : (keysP R).Nodup) (hscan : (scanPairs events).2 = none) :
    restorePolicies (Except.ok ()) false
      (remoteOf (applyActions
        (restorePolicies (Except.ok ()) false (remoteOf R) events put del).1 R))
      events put del = ([], none) := by
  have hL : (keysP (mapOf (scanPairs events).1)).Nodup := nodup_keysP_mapOf _
  have hfirst : (restorePolicies (Except.ok ()) false (remoteOf R) events put del).1 =
      restoreCore false put del R (mapOf (scanPairs events).1) := by
    rw [restorePolicies_run_ok false (remoteOf R) events put del
      (remotePairs_remoteOf_snd hR) hscan]
    rw [remotePairs_remoteOf_fst hR, mapOf_of_nodup hR]
  rw [hfirst]
  have hR1 : (keysP (applyActions
      (restoreCore false put del R (mapOf (scanPairs events).1)) R)).Nodup :=
    nodup_keysP_applyActions _ R hR
  rw [restorePolicies_run_ok false
    (remoteOf (applyActions
      (restoreCore false put del R (mapOf (scanPairs events).1)) R))
    events put del (remotePairs_remoteOf_snd hR1) hscan]
  rw [remotePairs_remoteOf_fst hR1, mapOf_of_nodup hR1]
  have hlook : ∀ q, lookupP (applyActions
      (restoreCore false put del R (mapOf (scanPairs events).1)) R) q =
      lookupP (mapOf (scanPairs events).1) q :=
    fun q => mirror_lookup put del R _ hL q
  have hdl : deleteLoop false del (mapOf (scanPairs events).1)
      (applyActions (restoreCore false put del R (mapOf (scanPairs events).1)) R) = [] := by
    apply deleteLoop_eq_nil
    intro p hp
    have hne := (mem_keysP_iff _ p).mp hp
    rw [hlook p] at hne
    exact hne
  have hwl : writeLoop false put
      (applyActions (restoreCore false put del R (mapOf (scanPairs events).1)) R)
      (mapOf (scanPairs events).1) = [] := by
    apply writeLoop_eq_nil
    intro pc hpc
    rw [hlook pc.1]
    exact lookupP_of_mem hL (by rw [Prod.mk.eta]; exact hpc)
  have hcore : restoreCore false put del
      (applyActions (restoreCore false put del R (mapOf (scanPairs events).1)) R)
      (mapOf (scanPairs events).1) = [] := by
    rw [restoreCore, hdl, hwl]
    rfl
  rw [hcore]

/-- C6: backing up into an empty directory and uploading the backed-up
files reproduces the remote content: applying the upload trace built
from the backup's files leaves every policy name bound to the document
it had before.  Policy names must be free of the path separator; a name
containing one would be written to a path whose base name differs. -/
theorem backupUploadRoundTrip (R : PolicyMap) (dir : String)
    (hR : (keysP R).Nodup)
    (hslash : ∀ pc ∈ R, ('/') ∉ (pc.1 : String).data) :
    ∀ n, lookupP (applyActions
        (uploadPolicies (Except.ok ()) false
          (eventsOfTrace
            (backupPolicies (Except.ok ()) false dir (remoteOf R) okWrite).1)
          okWrite).1 R) n = lookupP R n := by
  intro n
  rw [backupPolicies_false_run dir R hR]
  rw [eventsOfTrace_writes
    (fun pc => joinPath dir (pc.1 ++ String.mk ['.', 'h', 'c', 'l'])) R]
  rw [uploadPolicies_false_run]
  have h3 := scanPairs_entries
    (fun pc => joinPath dir (pc.1 ++ String.mk ['.', 'h', 'c', 'l'])) R
    (fun pc _ => goExt_joinPath dir pc.1)
  have h4 : R.map (fun pc =>
      (policyName (joinPath dir (pc.1 ++ String.mk ['.', 'h', 'c', 'l'])), pc.2)) =
      R.map (fun pc => (pc.1, pc.2)) := by
    apply List.map_congr_left
    intro pc hpc
    rw [policyName_joinPath dir pc.1 (hslash pc hpc)]
  rw [h4] at h3
  have h5 : R.map (fun pc : String × String => (pc.1, pc.2)) = R := by simp
  rw [h5] at h3
  rw [h3]
  rw [apply_map_put R R hR n]
  cases hn : lookupP R n with
  | some c => rfl
  | none => rfl

/-- Witness for C9 at a concrete run: a directory-walk failure aborts a
dry restore with that error, and a client-creation failure aborts a dry
backup with that error. -/
theorem dryRunStillReadsWitness :
    (restorePolicies (Except.ok ()) true (remoteOf [(("a"), ("1"))])
        (WalkEvent.failure ("d") ("boom") :: []) okWrite okDelete).2 = some ("boom")
    ∧ (backupPolicies (Except.error ("boom")) true ("bak")
        (remoteOf [(("a"), ("1"))]) okWrite).2 = some ("boom") :=
  ⟨((dryRunStillReads ("boom") ("bak") (remoteOf [(("a"), ("1"))]) okWrite okWrite
      okDelete [(("a"), ("1"))] [] (by decide)).2.2.2.2.2 ("d")).2,
   (dryRunStillReads ("boom") ("bak") (remoteOf [(("a"), ("1"))]) okWrite okWrite
      okDelete [(("a"), ("1"))] [] (by decide)).1⟩

/-- Witness for C5 at a concrete store and directory. -/
theorem restoreIdempotentWitness :
    (keysP [(("a"), ("1"))]).Nodup
    ∧ (scanPairs [WalkEvent.entry ("d/b.hcl") false (Except.ok ("2"))]).2 = none
    ∧ restorePolicies (Except.ok ()) false
        (remoteOf (applyActions
          (restorePolicies (Except.ok ()) false (remoteOf [(("a"), ("1"))])
            [WalkEvent.entry ("d/b.hcl") false (Except.ok ("2"))]
            okWrite okDelete).1
          [(("a"), ("1"))]))
        [WalkEvent.entry ("d/b.hcl") false (Except.ok ("2"))]
        okWrite okDelete = ([], none) :=
  ⟨by decide, by decide,
   restoreIdempotent [(("a"), ("1"))]
     [WalkEvent.entry ("d/b.hcl") false (Except.ok ("2"))]
     okWrite okDelete (by decide) (by decide)⟩

/-- Witness for C6 at a concrete store, checked on the policy name the
store holds. -/
theorem backupUploadRoundTripWitness :
    lookupP (applyActions
        (uploadPolicies (Except.ok ()) false
          (eventsOfTrace
            (backupPolicies (Except.ok ()) false ("bak")
              (remoteOf [(("a"), ("1"))]) okWrite).1)
          okWrite).1 [(("a"), ("1"))]) ("a") =
      lookupP [(("a"), ("1"))] ("a") :=
  backupUploadRoundTrip [(("a"), ("1"))] ("bak") (by decide) (by decide) ("a")

end VaultPolicies
